import Mathlib

/-!
Verification of the Stack Dependency & Export Reconciliation Engine and of
the `Function` construct of this repository.

The `Function` construct is embedded from
`src/packages/resources/src/Function.ts`.  The reconciliation engine
(Template Model, Reference Tracker, Dependency Graph Builder, Template Diff
Engine, Export Reconciler, Deployment Orchestrator) has no implementation
under `src/` — only the documentation page on cross-stack references — so
those components are modelled from the specification, as marked on each
definition.
-/

/-- Modelled from the spec: a template output — an output key mapped to a
value expression with an optional explicit export name (spec section 3,
"Template").  The implementation of the Template Model is not under `src/`. -/
structure TOutput where
  key : String
  value : String
  exportName : Option String
deriving DecidableEq

/-- Modelled from the spec: a stack template — a `Resources` section and an
`Outputs` section (spec sections 3 and 6).  The implementation of the
Template Model is not under `src/`. -/
structure Template where
  resources : List (String × String)
  outputs : List TOutput
deriving DecidableEq

/-- Modelled from the spec: export names are derived deterministically from
stack name + output key unless explicitly overridden (spec section 3,
"Export"). -/
def exportNameOf (stackName : String) (o : TOutput) : String :=
  o.exportName.getD (stackName ++ ":" ++ o.key)

/-- Modelled from the spec: the (export name, value) pairs a template
exports (spec section 3, "Export"). -/
def Template.exportPairs (stackName : String) (t : Template) : List (String × String) :=
  t.outputs.map (fun o => (exportNameOf stackName o, o.value))

/-- Whether some output of `t` produces the export name `name`. -/
def hasExportName (stackName : String) (t : Template) (name : String) : Bool :=
  t.outputs.any (fun o => exportNameOf stackName o == name)

/-- Modelled from the spec: the result of the Template Diff Engine (spec
section 4.3).  The implementation is not under `src/`. -/
structure DiffResult where
  removedExports : List (String × String)
  unchangedExports : List (String × String)
  addedExports : List (String × String)
deriving DecidableEq

/-- Modelled from the spec: `diff(lastDeployed, desired)` of the Template
Diff Engine (spec section 4.3).  An export is removed iff it existed with a
given export name in `lastDeployed` and no output in `desired` produces
that same export name; comparison is by export name, not by value.  The
implementation is not under `src/`. -/
def diff (stackName : String) (lastDeployed desired : Template) : DiffResult :=
  { removedExports :=
      (lastDeployed.exportPairs stackName).filter
        (fun e => !(hasExportName stackName desired e.1))
    unchangedExports :=
      (lastDeployed.exportPairs stackName).filter
        (fun e => hasExportName stackName desired e.1)
    addedExports :=
      (desired.exportPairs stackName).filter
        (fun e => !(hasExportName stackName lastDeployed e.1)) }

/-- Modelled from the spec: the synthetic output injected by the Export
Reconciler, reproducing the exact (export name, value) pair that was last
deployed (spec section 4.4). -/
def injectedOutput (e : String × String) : TOutput :=
  { key := e.1, value := e.2, exportName := some e.1 }

/-- Modelled from the spec: `reconcile(stack, removedExports, consumerSets)`
of the Export Reconciler (spec section 4.4).  For each removed export whose
consumer set is non-empty, a synthetic output is injected into `desired`
reproducing the last-deployed (export name, value) pair; removed exports
with an empty consumer set stay removed.  `consumerSets` maps an export
name of this stack to the set of surviving consumer stacks, computed fresh
each run.  The implementation is not under `src/`. -/
def reconcile (stackName : String) (lastDeployed desired : Template)
    (consumerSets : String → List String) : Template :=
  let removed := (diff stackName lastDeployed desired).removedExports
  let kept := removed.filter (fun e => !(consumerSets e.1).isEmpty)
  { desired with outputs := desired.outputs ++ kept.map injectedOutput }

/-- Modelled from the spec: a Reference — stack `consumer` imported a value
produced by stack `producer`, keyed by the specific output (spec section
3).  The implementation of the Reference Tracker is not under `src/`. -/
structure Reference where
  consumer : String
  producer : String
  outputKey : String
deriving DecidableEq

/-- Modelled from the spec: the Reference Tracker's internal bookkeeping
(spec section 4.1).  The implementation is not under `src/`. -/
structure RefTracker where
  refs : List Reference
deriving DecidableEq

/-- Modelled from the spec: `record(consumer, producer, outputKey)` of the
Reference Tracker (spec section 4.1): idempotent, and a stack referencing
its own output is ignored.  The implementation is not under `src/`. -/
def RefTracker.record (t : RefTracker) (consumer producer outputKey : String) : RefTracker :=
  if consumer = producer then t
  else
    let r : Reference := { consumer := consumer, producer := producer, outputKey := outputKey }
    if r ∈ t.refs then t else { refs := r :: t.refs }

/-- Modelled from the spec: `resolve()` of the Reference Tracker — for a
(producer, outputKey) pair, the set of distinct consumer stacks (spec
section 4.1).  The implementation is not under `src/`. -/
def RefTracker.resolve (t : RefTracker) (producer outputKey : String) : List String :=
  ((t.refs.filter
      (fun r => decide (r.producer = producer ∧ r.outputKey = outputKey))).map
    (fun r => r.consumer)).dedup

/-- Modelled from the spec: the DependencyEdges induced by a set of
References — for each reference (consumer, producer) an edge
consumer→producer, multiple references between the same pair collapsing to
one edge (spec sections 3 and 4.2).  The implementation of the Dependency
Graph Builder is not under `src/`. -/
def edgesOf (refs : List Reference) : List (String × String) :=
  (refs.map (fun r => (r.consumer, r.producer))).dedup

/-- The stack names occurring as an endpoint of some edge. -/
def nodesOf (edges : List (String × String)) : List String :=
  (edges.map Prod.fst ++ edges.map Prod.snd).dedup

/-- A stack `n` is ready for placement when every stack it imports from is
already placed. -/
def ready (edges : List (String × String)) (placed : List String) (n : String) : Bool :=
  edges.all (fun e => decide (e.1 = n → e.2 ∈ placed))

/-- One step of cycle extraction: from a stuck stack `n`, follow some edge
whose producer has not been placed. -/
def stuckStep (edges : List (String × String)) (placed : List String) (n : String) :
    Option String :=
  (edges.find? (fun e => decide (e.1 = n ∧ e.2 ∉ placed))).map Prod.snd

/-- The suffix of a list starting at the first occurrence of `a`. -/
def dropThrough (a : String) : List String → List String
  | [] => []
  | b :: rest => if b = a then b :: rest else dropThrough a rest

/-- Cycle extraction on the stuck subgraph: starting from a stuck stack,
repeatedly follow `stuckStep` until a stack repeats; the cycle is the part
of the visited path from that stack onwards. -/
def walkCycle (edges : List (String × String)) (placed : List String) :
    Nat → List String → String → List String
  | 0, _, _ => []
  | fuel + 1, visited, cur =>
    match stuckStep edges placed cur with
    | none => []
    | some nxt =>
      if nxt ∈ visited then dropThrough nxt visited
      else walkCycle edges placed fuel (visited ++ [nxt]) nxt

/-- `chainB edges a l` holds when consecutive elements of `a :: l` are all
edges of the graph. -/
def chainB (edges : List (String × String)) : String → List String → Bool
  | _, [] => true
  | a, b :: rest => decide ((a, b) ∈ edges) && chainB edges b rest

/-- `a :: rest` is a cycle of the graph: its consecutive elements are edges
and the last element has an edge back to `a`. -/
def isCycleList (edges : List (String × String)) : List String → Bool
  | [] => false
  | a :: rest => chainB edges a (rest ++ [a])

/-- Consecutive elements of the list are edges of the graph. -/
def chainFrom (edges : List (String × String)) : List String → Bool
  | [] => true
  | a :: rest => chainB edges a rest

/-- The graph has a (directed) cycle. -/
def hasCycle (edges : List (String × String)) : Prop :=
  ∃ l, isCycleList edges l = true

/-- Modelled from the spec: the CycleError reported by the Dependency Graph
Builder — the offending cycle as an ordered list of stack names (spec
section 4.2).  The implementation is not under `src/`. -/
structure CycleError where
  cycle : List String
deriving DecidableEq

/-- Modelled from the spec: the core loop of the Dependency Graph Builder —
repeatedly place a stack all of whose producers are already placed; if none
exists while stacks remain, extract and report the offending cycle (spec
section 4.2).  The implementation is not under `src/`. -/
def topoAux (edges : List (String × String)) :
    Nat → List String → List String → Except CycleError (List String)
  | 0, placed, pending =>
    match pending with
    | [] => .ok placed
    | n0 :: _ => .error ⟨walkCycle edges placed (pending.length + 1) [n0] n0⟩
  | fuel + 1, placed, pending =>
    match pending.find? (ready edges placed) with
    | some n => topoAux edges fuel (placed ++ [n]) (pending.erase n)
    | none =>
      match pending with
      | [] => .ok placed
      | n0 :: _ => .error ⟨walkCycle edges placed (pending.length + 1) [n0] n0⟩

/-- Modelled from the spec: `build(references) -> Graph | CycleError` of the
Dependency Graph Builder — on success a topological ordering of the stacks
(producers first), on a cycle a CycleError naming the stacks of the cycle
(spec section 4.2).  The implementation is not under `src/`. -/
def build (refs : List Reference) : Except CycleError (List String) :=
  topoAux (edgesOf refs) (nodesOf (edgesOf refs)).length [] (nodesOf (edgesOf refs))

/-- `producerBefore order p c`: both stacks occur in the order and the
producer `p` occurs strictly before the consumer `c`. -/
def producerBefore (order : List String) (p c : String) : Prop :=
  p ∈ order ∧ c ∈ order ∧ order.indexOf p < order.indexOf c

/-- Modelled from the spec: the per-stack states of the Deployment
Orchestrator's state machine (spec section 4.5).  The implementation is not
under `src/`. -/
inductive StackState
  | Pending
  | Deploying
  | Deployed
  | Failed
  | Blocked
deriving DecidableEq

/-- Pointwise update of an orchestrator state assignment. -/
def updateStatus (s : String → StackState) (n : String) (v : StackState) :
    String → StackState :=
  fun m => if m = n then v else s m

/-- Modelled from the spec: one transition of the Deployment Orchestrator
(spec section 4.5).  `deps n` is the list of stacks `n` depends on (imports
from).  A stack is dispatched (moves to `Deploying`) only when it is
`Pending` and every stack it depends on is `Deployed`; a deploying stack
completes to `Deployed` or fails to `Failed`; a pending stack with a failed
or blocked dependency is marked `Blocked`.  The implementation is not under
`src/`. -/
inductive OStep (deps : String → List String) :
    (String → StackState) → (String → StackState) → Prop
  | dispatch (s : String → StackState) (n : String)
      (hn : s n = StackState.Pending)
      (hd : ∀ p ∈ deps n, s p = StackState.Deployed) :
      OStep deps s (updateStatus s n StackState.Deploying)
  | complete (s : String → StackState) (n : String)
      (hn : s n = StackState.Deploying) :
      OStep deps s (updateStatus s n StackState.Deployed)
  | fail (s : String → StackState) (n : String)
      (hn : s n = StackState.Deploying) :
      OStep deps s (updateStatus s n StackState.Failed)
  | block (s : String → StackState) (n : String)
      (hn : s n = StackState.Pending)
      (hb : ∃ p ∈ deps n, s p = StackState.Failed ∨ s p = StackState.Blocked) :
      OStep deps s (updateStatus s n StackState.Blocked)

/-- Modelled from the spec: the states reachable by the Deployment
Orchestrator from the initial all-`Pending` state (spec section 4.5). -/
inductive OReach (deps : String → List String) : (String → StackState) → Prop
  | init : OReach deps (fun _ => StackState.Pending)
  | step {s s' : String → StackState} :
      OReach deps s → OStep deps s s' → OReach deps s'

/-! Embedding of `src/packages/resources/src/Function.ts`. -/

/-- A Lambda runtime, identified by its name (embedding of
`lambda.Runtime` values used by `Function.ts`). -/
structure Runtime where
  name : String
deriving DecidableEq

def NODEJS : Runtime := ⟨"nodejs"⟩

def NODEJS_4_3 : Runtime := ⟨"nodejs4.3"⟩

def NODEJS_6_10 : Runtime := ⟨"nodejs6.10"⟩

def NODEJS_8_10 : Runtime := ⟨"nodejs8.10"⟩

def NODEJS_10_X : Runtime := ⟨"nodejs10.x"⟩

def NODEJS_12_X : Runtime := ⟨"nodejs12.x"⟩

/-- The runtime allow-list of the `Function` constructor
(`Function.ts` lines 78-87). -/
def supportedRuntimes : List Runtime :=
  [NODEJS, NODEJS_10_X, NODEJS_12_X, NODEJS_4_3, NODEJS_6_10, NODEJS_8_10]

/-- `HandlerProps` of `Function.ts`: the record registered with the app for
every constructed function. -/
structure HandlerProps where
  srcPath : String
  handler : String
  entry : String
deriving DecidableEq

/-- The slice of the SST `App` that `Function.ts` reads and writes:
`local`, `debugEndpoint`, `buildDir` and the registered Lambda handlers
(`local` is a reserved word in Lean, hence `isLocal`). -/
structure App where
  isLocal : Bool
  debugEndpoint : Option String
  buildDir : String
  lambdaHandlers : List HandlerProps
deriving DecidableEq

/-- `App.registerLambdaHandler`: appends one handler record. -/
def App.registerLambdaHandler (app : App) (h : HandlerProps) : App :=
  { app with lambdaHandlers := app.lambdaHandlers ++ [h] }

/-- `FunctionProps` of `Function.ts`.  `entry` is typed as a required
string in TypeScript but may still be absent at runtime, hence `Option`;
an absent or empty entry is rejected identically by the constructor. -/
structure FunctionProps where
  entry : Option String
  handler : Option String
  srcPath : Option String
  runtime : Option Runtime
  bundle : Option Bool
  environment : List (String × String)
deriving DecidableEq

/-- Input of the external `builder` collaborator (`util/builder`). -/
structure BuilderIn where
  entry : String
  bundle : Bool
  srcPath : String
  handler : String
  buildDir : String
deriving DecidableEq

/-- Output of the external `builder` collaborator. -/
structure BuilderOut where
  outZip : String
  outHandler : String
deriving DecidableEq

/-- The Lambda function resource produced by a successful `Function`
construction. -/
structure FunctionConstruct where
  runtime : Runtime
  handler : String
  codeAsset : String
  environment : List (String × String)
deriving DecidableEq

/-- JavaScript `a || b` on an optional string: the default `b` applies when
`a` is absent or the empty string (both falsy). -/
def falsyOr (a : Option String) (b : String) : String :=
  match a with
  | none => b
  | some s => if s = "" then b else s

/-- Embedding of the `Function` constructor of
`src/packages/resources/src/Function.ts`: defaults are applied (`handler`
and `srcPath` with JavaScript `||`, so an explicitly empty string is also
defaulted; `runtime` with `||` on an object, falsy only when absent;
`bundle` with an explicit `undefined` check), the entry point and the
runtime are validated (throwing is modelled as `.error`, in which case no
resource is created and nothing is registered), the resource is created in
local or non-local mode, and exactly one handler record is registered with
the app.  The external bundler is passed in as `builder`. -/
def mkFunction (builder : BuilderIn → BuilderOut) (root : App) (id : String)
    (props : FunctionProps) : Except String (FunctionConstruct × App) :=
  let handler := falsyOr props.handler "handler"
  let runtime := props.runtime.getD NODEJS_12_X
  let bundle := props.bundle.getD true
  let srcPath := falsyOr props.srcPath "."
  let entry := props.entry.getD ""
  if entry = "" then
    .error ("No entry point defined for the " ++ id ++ " Lambda function")
  else if !(supportedRuntimes.contains runtime) then
    .error ("sst.Function does not support " ++ runtime.name ++
      ". Only NodeJS runtimes are currently supported.")
  else
    let fc : FunctionConstruct :=
      if root.isLocal then
        { runtime := runtime
          handler := "index.main"
          codeAsset := "../dist/stub.zip"
          environment := props.environment ++
            [("SST_DEBUG_SRC_PATH", srcPath),
             ("SST_DEBUG_SRC_ENTRY", entry),
             ("SST_DEBUG_SRC_HANDLER", handler),
             ("SST_DEBUG_ENDPOINT", root.debugEndpoint.getD "")] }
      else
        let out := builder
          { entry := entry, bundle := bundle, srcPath := srcPath,
            handler := handler, buildDir := root.buildDir }
        { runtime := runtime
          handler := out.outHandler
          codeAsset := out.outZip
          environment := props.environment }
    .ok (fc, root.registerLambdaHandler
      { srcPath := srcPath, entry := entry, handler := handler })

/-! Concrete instances, used to evaluate the development on the canonical
scenario of the documentation (stack `StackA` exporting a table name
consumed by `StackB`) and on small deployments. -/

/-- Last-deployed template of `StackA`: it exports the table name. -/
def exL : Template :=
  ⟨[], [⟨"ExportsOutputRefMyTable", "dev-demo-StackA-MyTable-1CU", none⟩]⟩

/-- Desired template of `StackA` after the export's output is gone. -/
def exD : Template := ⟨[], []⟩

/-- Export name of the table-name export of `StackA`. -/
def exName : String := "dev-demo-StackA:ExportsOutputRefMyTable"

/-- Consumer sets at the first run after `StackB` dropped its reference:
`StackB`'s deployed template still imports the export. -/
def exCs1 : String → List String :=
  fun n => if n = exName then ["dev-demo-StackB"] else []

/-- Consumer sets at the second run: nothing imports the export any more. -/
def exCs2 : String → List String := fun _ => []

/-- `StackA`'s template as deployed by the first run. -/
def exRun1 : Template := reconcile "dev-demo-StackA" exL exD exCs1

/-- References forming a dependency cycle between two stacks. -/
def cycRefs : List Reference := [⟨"A", "B", "k"⟩, ⟨"B", "A", "k"⟩]

/-- Dependencies of the documentation's chain: `A` imports from `B`, `B`
imports from `C`. -/
def chainDeps : String → List String :=
  fun n => if n = "A" then ["B"] else if n = "B" then ["C"] else []

/-- Initial orchestrator state: every stack `Pending`. -/
def oInit : String → StackState := fun _ => StackState.Pending

def oS1 : String → StackState := updateStatus oInit "C" StackState.Deploying

def oS2 : String → StackState := updateStatus oS1 "C" StackState.Deployed

def oS3 : String → StackState := updateStatus oS2 "B" StackState.Deploying

def oS4 : String → StackState := updateStatus oS3 "B" StackState.Deployed

def oS5 : String → StackState := updateStatus oS4 "A" StackState.Deploying

/-- A concrete bundling collaborator. -/
def cBuilder : BuilderIn → BuilderOut :=
  fun i => ⟨i.srcPath ++ "/.build/out.zip", i.handler⟩

/-- A concrete non-local app. -/
def cApp : App := ⟨false, none, ".build", []⟩

/-- Props with no entry point. -/
def cPropsNoEntry : FunctionProps := ⟨none, none, none, none, none, []⟩

/-- Props with an entry point and every optional field defaulted. -/
def cPropsOk : FunctionProps := ⟨some "src/lambda.js", none, none, none, none, []⟩

/-- Props asking for an unsupported (non-Node.js) runtime. -/
def cPropsPython : FunctionProps :=
  ⟨some "src/lambda.js", none, none, some ⟨"python3.8"⟩, none, []⟩

/-- Props with an entry point and explicitly empty (hence falsy) `handler`
and `srcPath`, which the constructor defaults exactly like absent ones. -/
def cPropsFalsy : FunctionProps :=
  ⟨some "src/lambda.js", some "", some "", none, none, []⟩

/-- The app after the successful construction from `cPropsOk`. -/
def cAppAfter : App := ⟨false, none, ".build", [⟨".", "handler", "src/lambda.js"⟩]⟩

/-- The function resource built from `cPropsOk` by `cBuilder` on `cApp`. -/
def cConstruct : FunctionConstruct :=
  ⟨NODEJS_12_X, "handler", "./.build/out.zip", []⟩

/-! Helper lemmas. -/

theorem hasExportName_false_iff (sn : String) (t : Template) (name : String) :
    hasExportName sn t name = false ↔ ∀ o ∈ t.outputs, exportNameOf sn o ≠ name := by
  simp [hasExportName]

theorem outputs_reconcile (sn : String) (L D : Template) (cs : String → List String) :
    (reconcile sn L D cs).outputs =
      D.outputs ++
        (((diff sn L D).removedExports.filter
            (fun e => !(cs e.1).isEmpty)).map injectedOutput) := rfl

theorem exportPairs_reconcile (sn : String) (L D : Template) (cs : String → List String) :
    (reconcile sn L D cs).exportPairs sn =
      D.exportPairs sn ++
        (diff sn L D).removedExports.filter (fun e => !(cs e.1).isEmpty) := by
  show (D.outputs ++ _).map _ = _
  rw [List.map_append]
  congr 1
  rw [List.map_map]
  have h : ((fun o => (exportNameOf sn o, o.value)) ∘ injectedOutput) =
      fun e : String × String => e := funext (fun e => rfl)
  rw [h, List.map_id']

theorem mem_removedExports_iff (sn : String) (L D : Template) (e : String × String) :
    e ∈ (diff sn L D).removedExports ↔
      e ∈ L.exportPairs sn ∧ hasExportName sn D e.1 = false := by
  simp [diff, List.mem_filter, Bool.not_eq_true']

/-! Claim theorems. -/

/-- C4.  Template Diff Engine classification: an export pair is in
`removedExports` exactly when it is an export of `lastDeployed` and no
output of `desired` produces that same export name; and an export whose
name exists in both templates — even with a different value — is never
classified as removed. -/
theorem diff_removed_characterization (sn : String) (L D : Template) :
    (∀ e : String × String,
        e ∈ (diff sn L D).removedExports ↔
          e ∈ L.exportPairs sn ∧ hasExportName sn D e.1 = false) ∧
    (∀ e : String × String,
        e ∈ L.exportPairs sn → hasExportName sn D e.1 = true →
          e ∉ (diff sn L D).removedExports) := by
  refine ⟨fun e => mem_removedExports_iff sn L D e, fun e hL hD hmem => ?_⟩
  have h := (mem_removedExports_iff sn L D e).mp hmem
  rw [hD] at h
  exact absurd h.2 (by simp)

/-- Witness for C4 on the documentation's scenario: the table-name export
kept under the same name in the desired template (with a changed value) is
not classified as removed. -/
theorem diff_removed_characterization_witness :
    (exName, "dev-demo-StackA-MyTable-1CU") ∉
      (diff "dev-demo-StackA" exL
        ⟨[], [⟨"ExportsOutputRefMyTable", "new-value", none⟩]⟩).removedExports :=
  (diff_removed_characterization "dev-demo-StackA" exL
      ⟨[], [⟨"ExportsOutputRefMyTable", "new-value", none⟩]⟩).2
    (exName, "dev-demo-StackA-MyTable-1CU") (by decide) (by decide)

/-- C5.  Reconciliation idempotence/determinism: on equal input triples
(`lastDeployed`, `desired`, `consumerSets`) — the consumer sets taken
extensionally — two invocations of `reconcile` produce identical patched
templates. -/
theorem reconcile_deterministic (sn : String) (L1 L2 D1 D2 : Template)
    (cs1 cs2 : String → List String) (hL : L1 = L2) (hD : D1 = D2)
    (hcs : ∀ n, cs1 n = cs2 n) :
    reconcile sn L1 D1 cs1 = reconcile sn L2 D2 cs2 := by
  subst hL
  subst hD
  rw [show cs1 = cs2 from funext hcs]

/-- Witness for C5 at the documentation scenario's input. -/
theorem reconcile_deterministic_witness :
    reconcile "dev-demo-StackA" exL exD exCs1 =
      reconcile "dev-demo-StackA" exL exD exCs1 :=
  reconcile_deterministic "dev-demo-StackA" exL exL exD exD exCs1 exCs1 rfl rfl
    (fun _ => rfl)

/-- C6.  No spurious injection: when the diff yields no removed exports,
`reconcile` returns `desired` unmodified. -/
theorem reconcile_no_spurious (sn : String) (L D : Template)
    (cs : String → List String) (h : (diff sn L D).removedExports = []) :
    reconcile sn L D cs = D := by
  simp only [reconcile, h, List.filter_nil, List.map_nil, List.append_nil]

/-- Witness for C6: a first deployment of `StackA` (nothing deployed yet)
leaves the desired template untouched. -/
theorem reconcile_no_spurious_witness :
    reconcile "dev-demo-StackA" ⟨[], []⟩ exL exCs1 = exL :=
  reconcile_no_spurious "dev-demo-StackA" ⟨[], []⟩ exL exCs1 (by decide)

/-- C7.  Reference Tracker `record` idempotence: recording the same
(consumer, producer, outputKey) triple twice leaves the tracker in the same
state as recording it once; in particular the consumer set `resolve`
returns for (producer, outputKey) is unchanged by the repeated call. -/
theorem record_idempotent (t : RefTracker) (c p k : String) :
    (t.record c p k).record c p k = t.record c p k ∧
    ((t.record c p k).record c p k).resolve p k = (t.record c p k).resolve p k := by
  have h : (t.record c p k).record c p k = t.record c p k := by
    by_cases hcp : c = p
    · simp [RefTracker.record, hcp]
    · by_cases hm : (⟨c, p, k⟩ : Reference) ∈ t.refs
      · simp [RefTracker.record, hcp, hm]
      · simp [RefTracker.record, hcp, hm]
  exact ⟨h, by rw [h]⟩

/-- C1.  Reconciliation convergence: take a stack whose last-deployed
template exports (`ename`, `v`) while the desired template no longer
produces `ename`.  On the first run the consumer set of `ename` is still
non-empty, and the reconciled template still exports `ename` with the exact
last-deployed value `v`; on the second run — last-deployed template now the
first run's patched template, consumer set of `ename` empty — the export is
absent from the reconciled template. -/
theorem reconcile_convergence (sn : String) (L D : Template)
    (cs1 cs2 : String → List String) (ename v : String)
    (hL : (ename, v) ∈ L.exportPairs sn)
    (hD : hasExportName sn D ename = false)
    (h1 : (cs1 ename).isEmpty = false)
    (h2 : cs2 ename = []) :
    (ename, v) ∈ (reconcile sn L D cs1).exportPairs sn ∧
    hasExportName sn (reconcile sn (reconcile sn L D cs1) D cs2) ename = false := by
  constructor
  · rw [exportPairs_reconcile]
    refine List.mem_append_right _ ?_
    rw [List.mem_filter]
    refine ⟨(mem_removedExports_iff sn L D (ename, v)).mpr ⟨hL, hD⟩, ?_⟩
    simp [h1]
  · rw [hasExportName_false_iff]
    intro o ho
    rw [outputs_reconcile] at ho
    rcases List.mem_append.mp ho with hd | hk
    · exact (hasExportName_false_iff sn D ename).mp hD o hd
    · rcases List.mem_map.mp hk with ⟨e, he, rfl⟩
      rcases List.mem_filter.mp he with ⟨_, hcond⟩
      intro hcontra
      have hname : e.1 = ename := hcontra
      rw [hname, h2] at hcond
      simp at hcond

/-- Witness for C1, the canonical documentation scenario: `StackB` dropped
its import of `StackA`'s table name; the first run keeps the export with
its original value, the second run drops it. -/
theorem reconcile_convergence_witness :
    (exName, "dev-demo-StackA-MyTable-1CU") ∈
      (reconcile "dev-demo-StackA" exL exD exCs1).exportPairs "dev-demo-StackA" ∧
    hasExportName "dev-demo-StackA"
      (reconcile "dev-demo-StackA" (reconcile "dev-demo-StackA" exL exD exCs1)
        exD exCs2) exName = false :=
  reconcile_convergence "dev-demo-StackA" exL exD exCs1 exCs2 exName
    "dev-demo-StackA-MyTable-1CU" (by decide) (by decide) (by decide) rfl

/-- C8.  The `Function` constructor fails with
"No entry point defined for the <id> Lambda function" whenever
`props.entry` is missing or empty; in that case no function resource is
created and no handler is registered with the app (the constructor returns
no (resource, app) pair at all). -/
theorem mkFunction_no_entry (builder : BuilderIn → BuilderOut) (root : App)
    (id : String) (props : FunctionProps)
    (h : props.entry = none ∨ props.entry = some "") :
    mkFunction builder root id props =
      .error ("No entry point defined for the " ++ id ++ " Lambda function") ∧
    ∀ r : FunctionConstruct × App, mkFunction builder root id props ≠ .ok r := by
  have he : mkFunction builder root id props =
      .error ("No entry point defined for the " ++ id ++ " Lambda function") := by
    rcases h with h | h <;> simp [mkFunction, h]
  exact ⟨he, fun r hr => by rw [he] at hr; exact Except.noConfusion hr⟩

/-- Witness for C8: constructing `MyFn` without an entry point fails with
the exact error message. -/
theorem mkFunction_no_entry_witness :
    mkFunction cBuilder cApp "MyFn" cPropsNoEntry =
      .error "No entry point defined for the MyFn Lambda function" :=
  (mkFunction_no_entry cBuilder cApp "MyFn" cPropsNoEntry (Or.inl rfl)).1

/-- C9.  With a valid entry point, `Function` construction succeeds exactly
when the runtime is omitted (defaulting to `NODEJS_12_X`, always accepted)
or is one of the Node.js runtimes of the allow-list; every other runtime
value makes the constructor throw. -/
theorem mkFunction_runtime_spec (builder : BuilderIn → BuilderOut) (root : App)
    (id : String) (props : FunctionProps)
    (he : ¬(props.entry = none ∨ props.entry = some "")) :
    (mkFunction builder root id props).isOk = true ↔
      (props.runtime = none ∨
        ∃ r, props.runtime = some r ∧ r ∈ supportedRuntimes) := by
  push_neg at he
  obtain ⟨e, hev⟩ : ∃ e, props.entry = some e := by
    cases hpe : props.entry with
    | none => exact absurd hpe he.1
    | some e => exact ⟨e, rfl⟩
  have hne : e ≠ "" := fun hc => he.2 (by rw [hev, hc])
  have hok : (mkFunction builder root id props).isOk =
      supportedRuntimes.contains (props.runtime.getD NODEJS_12_X) := by
    simp only [mkFunction, hev, Option.getD_some]
    rw [if_neg hne]
    cases hc : supportedRuntimes.contains (props.runtime.getD NODEJS_12_X) with
    | false => simp [hc, Except.isOk, Except.toBool]
    | true => simp [hc, Except.isOk, Except.toBool]
  rw [hok]
  cases hrt : props.runtime with
  | none =>
    simp only [Option.getD_none]
    constructor
    · intro _
      exact Or.inl trivial
    · intro _
      decide
  | some r =>
    simp only [Option.getD_some]
    constructor
    · intro hc
      exact Or.inr ⟨r, rfl, List.mem_of_elem_eq_true hc⟩
    · intro h
      rcases h with h | ⟨r', hr', hmem⟩
      · exact Option.noConfusion h
      · exact List.elem_eq_true_of_mem ((Option.some.inj hr').symm ▸ hmem)

/-- Witness for C9: with the runtime omitted, construction succeeds (the
default `NODEJS_12_X` is accepted). -/
theorem mkFunction_runtime_spec_witness :
    (mkFunction cBuilder cApp "Fn" cPropsOk).isOk = true :=
  (mkFunction_runtime_spec cBuilder cApp "Fn" cPropsOk (by simp [cPropsOk])).mpr
    (Or.inl rfl)

/-- C10.  Every successful `Function` construction registers exactly one
handler record with the app — appended to the previously registered ones —
with defaults applied: `handler` defaults to "handler" and `srcPath` to "."
whenever the given value is absent or empty (JavaScript `||` on a falsy
value), in local and non-local mode alike. -/
theorem mkFunction_registers_handler (builder : BuilderIn → BuilderOut)
    (root : App) (id : String) (props : FunctionProps)
    (fc : FunctionConstruct) (app' : App)
    (h : mkFunction builder root id props = .ok (fc, app')) :
    app'.lambdaHandlers = root.lambdaHandlers ++
      [{ srcPath := falsyOr props.srcPath ".",
         handler := falsyOr props.handler "handler",
         entry := props.entry.getD "" }] := by
  simp only [mkFunction] at h
  split at h
  · exact Except.noConfusion h
  · split at h
    · exact Except.noConfusion h
    · have := (Except.ok.injEq _ _).mp h
      have happ : app' = root.registerLambdaHandler
          { srcPath := falsyOr props.srcPath ".", entry := props.entry.getD "",
            handler := falsyOr props.handler "handler" } :=
        (Prod.ext_iff.mp this).2.symm
      rw [happ]
      rfl

/-- Witness for C10: the successful construction from `cPropsFalsy` —
`handler` and `srcPath` given as explicitly empty strings — registers the
defaulted handler record, just as with absent values. -/
theorem mkFunction_registers_handler_witness :
    cAppAfter.lambdaHandlers = cApp.lambdaHandlers ++
      [{ srcPath := ".", handler := "handler", entry := "src/lambda.js" }] :=
  mkFunction_registers_handler cBuilder cApp "Fn" cPropsFalsy cConstruct cAppAfter
    rfl

theorem updateStatus_self (s : String → StackState) (n : String) (v : StackState) :
    updateStatus s n v n = v := if_pos rfl

theorem updateStatus_ne {n m : String} (s : String → StackState) (v : StackState)
    (h : m ≠ n) : updateStatus s n v m = s m := if_neg h

/-- Orchestrator invariant: in every reachable state, a stack that is
`Deploying` or `Deployed` has all the stacks it depends on `Deployed`. -/
theorem oreach_deps_deployed (deps : String → List String)
    (s : String → StackState) (hr : OReach deps s) :
    ∀ n, (s n = StackState.Deploying ∨ s n = StackState.Deployed) →
      ∀ p ∈ deps n, s p = StackState.Deployed := by
  induction hr with
  | init =>
    intro n h p _
    rcases h with h | h <;> exact StackState.noConfusion h
  | step hprev hstep ih =>
    cases hstep with
    | dispatch m hm hd =>
      intro n h p hp
      by_cases hnm : n = m
      · have hpdep := hd p (hnm ▸ hp)
        have hpm : p ≠ m := fun hc => by
          rw [hc, hm] at hpdep
          exact StackState.noConfusion hpdep
        rw [updateStatus_ne _ _ hpm]
        exact hpdep
      · rw [updateStatus_ne _ _ hnm] at h
        have hpdep := ih n h p hp
        have hpm : p ≠ m := fun hc => by
          rw [hc, hm] at hpdep
          exact StackState.noConfusion hpdep
        rw [updateStatus_ne _ _ hpm]
        exact hpdep
    | complete m hm =>
      intro n h p hp
      by_cases hpm : p = m
      · rw [hpm, updateStatus_self]
      · rw [updateStatus_ne _ _ hpm]
        by_cases hnm : n = m
        · exact ih m (Or.inl hm) p (hnm ▸ hp)
        · rw [updateStatus_ne _ _ hnm] at h
          exact ih n h p hp
    | fail m hm =>
      intro n h p hp
      have hnm : n ≠ m := by
        intro hc
        rw [hc, updateStatus_self] at h
        rcases h with h | h <;> exact StackState.noConfusion h
      rw [updateStatus_ne _ _ hnm] at h
      have hpdep := ih n h p hp
      have hpm : p ≠ m := fun hc => by
        rw [hc, hm] at hpdep
        exact StackState.noConfusion hpdep
      rw [updateStatus_ne _ _ hpm]
      exact hpdep
    | block m hm hb =>
      intro n h p hp
      have hnm : n ≠ m := by
        intro hc
        rw [hc, updateStatus_self] at h
        rcases h with h | h <;> exact StackState.noConfusion h
      rw [updateStatus_ne _ _ hnm] at h
      have hpdep := ih n h p hp
      have hpm : p ≠ m := fun hc => by
        rw [hc, hm] at hpdep
        exact StackState.noConfusion hpdep
      rw [updateStatus_ne _ _ hpm]
      exact hpdep

/-- C3.  Orchestrator ordering: in every execution (every transition out of
a reachable state), a stack transitions into `Deploying` only when every
stack it depends on is already `Deployed`; and in every reachable state a
stack that is in flight has all its dependencies `Deployed`.  For a chain
A→B→C this means A is never dispatched before B is `Deployed` and B never
before C. -/
theorem orchestrator_ordering (deps : String → List String) :
    (∀ s s' : String → StackState, ∀ n : String, OReach deps s →
      OStep deps s s' → s n ≠ StackState.Deploying → s' n = StackState.Deploying →
        ∀ p ∈ deps n, s p = StackState.Deployed) ∧
    (∀ s : String → StackState, ∀ n : String, OReach deps s →
      s n = StackState.Deploying → ∀ p ∈ deps n, s p = StackState.Deployed) := by
  constructor
  · intro s s' n _ hstep hn hn' p hp
    cases hstep with
    | dispatch m hm hd =>
      by_cases hnm : n = m
      · exact hd p (hnm ▸ hp)
      · rw [updateStatus_ne _ _ hnm] at hn'
        exact absurd hn' hn
    | complete m hm =>
      by_cases hnm : n = m
      · rw [hnm, updateStatus_self] at hn'
        exact StackState.noConfusion hn'
      · rw [updateStatus_ne _ _ hnm] at hn'
        exact absurd hn' hn
    | fail m hm =>
      by_cases hnm : n = m
      · rw [hnm, updateStatus_self] at hn'
        exact StackState.noConfusion hn'
      · rw [updateStatus_ne _ _ hnm] at hn'
        exact absurd hn' hn
    | block m hm hb =>
      by_cases hnm : n = m
      · rw [hnm, updateStatus_self] at hn'
        exact StackState.noConfusion hn'
      · rw [updateStatus_ne _ _ hnm] at hn'
        exact absurd hn' hn
  · intro s n hr hn p hp
    exact oreach_deps_deployed deps s hr n (Or.inl hn) p hp

/-- Witness for C3 on the chain A→B→C: a concrete execution that deploys C,
then B, then dispatches A; in the state where A is `Deploying`, B is
`Deployed`. -/
theorem orchestrator_ordering_witness : oS5 "B" = StackState.Deployed :=
  (orchestrator_ordering chainDeps).2 oS5 "A"
    (OReach.step
      (OReach.step
        (OReach.step
          (OReach.step
            (OReach.step OReach.init
              (OStep.dispatch oInit "C" rfl (by decide)))
            (OStep.complete oS1 "C" (by decide)))
          (OStep.dispatch oS2 "B" (by decide) (by decide)))
        (OStep.complete oS3 "B" (by decide)))
      (OStep.dispatch oS4 "A" (by decide) (by decide)))
    (by decide) "B" (by decide)

/-! Lemmas towards the Dependency Graph Builder theorem (C2). -/

theorem getLastD_mem : ∀ (l : List String) (d : String), l ≠ [] → l.getLastD d ∈ l := by
  intro l
  induction l with
  | nil => intro d h; exact absurd rfl h
  | cons a t ih =>
    intro d _
    rw [List.getLastD_cons]
    cases ht : t with
    | nil => simp
    | cons b t' =>
      have := ih a (by simp [ht])
      rw [ht] at this
      exact List.mem_cons_of_mem a this

theorem getLastD_irrel : ∀ (l : List String) (d1 d2 : String), l ≠ [] →
    l.getLastD d1 = l.getLastD d2 := by
  intro l
  induction l with
  | nil => intro d1 d2 h; exact absurd rfl h
  | cons a t _ =>
    intro d1 d2 _
    rw [List.getLastD_cons, List.getLastD_cons]

theorem getLastD_concat : ∀ (l : List String) (a d : String),
    (l ++ [a]).getLastD d = a := by
  intro l
  induction l with
  | nil => intro a d; rfl
  | cons b t ih =>
    intro a d
    rw [List.cons_append, List.getLastD_cons, ih]

theorem ready_iff (edges : List (String × String)) (placed : List String) (n : String) :
    ready edges placed n = true ↔ ∀ e ∈ edges, e.1 = n → e.2 ∈ placed := by
  simp only [ready, List.all_eq_true, decide_eq_true_eq]

theorem not_ready_exists (edges : List (String × String)) (placed : List String)
    (n : String) (h : ¬ ready edges placed n = true) :
    ∃ e ∈ edges, e.1 = n ∧ e.2 ∉ placed := by
  rw [ready_iff] at h
  push_neg at h
  exact h

theorem chainB_append (edges : List (String × String)) :
    ∀ (xs : List String) (a : String) (ys : List String),
      chainB edges a (xs ++ ys) = (chainB edges a xs && chainB edges (xs.getLastD a) ys) := by
  intro xs
  induction xs with
  | nil =>
    intro a ys
    simp [chainB]
  | cons b xs ih =>
    intro a ys
    rw [List.cons_append]
    show (decide ((a, b) ∈ edges) && chainB edges b (xs ++ ys)) = _
    rw [ih b ys, List.getLastD_cons]
    show _ = ((decide ((a, b) ∈ edges) && chainB edges b xs) && chainB edges (xs.getLastD b) ys)
    rw [Bool.and_assoc]

theorem chainFrom_tail (edges : List (String × String)) (b : String) (r : List String)
    (h : chainFrom edges (b :: r) = true) : chainFrom edges r = true := by
  cases r with
  | nil => rfl
  | cons c r' =>
    have hc : chainB edges b (c :: r') = true := h
    rw [show chainB edges b (c :: r') =
      (decide ((b, c) ∈ edges) && chainB edges c r') from rfl,
      Bool.and_eq_true] at hc
    exact hc.2

theorem chainFrom_dropThrough (edges : List (String × String)) (a : String) :
    ∀ l : List String, chainFrom edges l = true →
      chainFrom edges (dropThrough a l) = true := by
  intro l
  induction l with
  | nil => intro h; exact h
  | cons b rest ih =>
    intro h
    rw [dropThrough]
    by_cases hb : b = a
    · rw [if_pos hb]; exact h
    · rw [if_neg hb]; exact ih (chainFrom_tail edges b rest h)

theorem dropThrough_eq_cons (a : String) :
    ∀ l : List String, a ∈ l → ∃ t, dropThrough a l = a :: t := by
  intro l
  induction l with
  | nil => intro h; exact absurd h (List.not_mem_nil a)
  | cons b rest ih =>
    intro h
    rw [dropThrough]
    by_cases hb : b = a
    · rw [if_pos hb, hb]; exact ⟨rest, rfl⟩
    · rw [if_neg hb]
      rcases List.mem_cons.mp h with hba | hmem
      · exact absurd hba.symm hb
      · exact ih hmem

theorem getLastD_dropThrough (a d : String) :
    ∀ l : List String, a ∈ l → (dropThrough a l).getLastD d = l.getLastD d := by
  intro l
  induction l with
  | nil => intro h; exact absurd h (List.not_mem_nil a)
  | cons b rest ih =>
    intro h
    rw [dropThrough]
    by_cases hb : b = a
    · rw [if_pos hb]
    · rw [if_neg hb]
      rcases List.mem_cons.mp h with hba | hmem
      · exact absurd hba.symm hb
      · have hne : rest ≠ [] := by
          intro hc
          rw [hc] at hmem
          exact List.not_mem_nil a hmem
        rw [ih hmem, List.getLastD_cons, getLastD_irrel rest b d hne]

theorem stuckStep_some (edges : List (String × String)) (placed : List String)
    (n : String) (h : ∃ e ∈ edges, e.1 = n ∧ e.2 ∉ placed) :
    ∃ nxt, stuckStep edges placed n = some nxt ∧ (n, nxt) ∈ edges ∧ nxt ∉ placed := by
  obtain ⟨e, hmem, hfst, hsnd⟩ := h
  have hsome : (edges.find? (fun e => decide (e.1 = n ∧ e.2 ∉ placed))).isSome := by
    rw [List.find?_isSome]
    exact ⟨e, hmem, by simp [hfst, hsnd]⟩
  obtain ⟨e', he'⟩ := Option.isSome_iff_exists.mp hsome
  have hp : (e'.1 = n ∧ e'.2 ∉ placed) := by
    have := List.find?_some he'
    simpa using this
  refine ⟨e'.2, ?_, ?_, hp.2⟩
  · rw [stuckStep, he']
    rfl
  · have : (n, e'.2) = e' := by
      rw [← hp.1]
    rw [this]
    exact List.mem_of_find?_eq_some he'

/-- Soundness and success of cycle extraction: starting anywhere in the
stuck set, `walkCycle` returns a genuine cycle of the graph. -/
theorem walkCycle_spec (edges : List (String × String)) (placed pend : List String)
    (hstall : ∀ n ∈ pend, ∃ e ∈ edges, e.1 = n ∧ e.2 ∉ placed)
    (hclosed : ∀ e ∈ edges, e.2 ∉ placed → e.2 ∈ pend) :
    ∀ (fuel : Nat) (visited : List String) (cur : String),
      (∀ x ∈ visited, x ∈ pend) → visited.Nodup → visited ≠ [] →
      visited.getLastD "" = cur → chainFrom edges visited = true →
      pend.length + 1 ≤ fuel + visited.length →
      isCycleList edges (walkCycle edges placed fuel visited cur) = true := by
  intro fuel
  induction fuel with
  | zero =>
    intro visited cur hvp hnd _ _ _ hfuel
    exfalso
    have hsub : visited ⊆ pend := fun x hx => hvp x hx
    have hle := (List.subperm_of_subset hnd hsub).length_le
    omega
  | succ f ih =>
    intro visited cur hvp hnd hne hlast hchain hfuel
    have hcur_mem : cur ∈ visited := hlast ▸ getLastD_mem visited "" hne
    obtain ⟨nxt, hstep, hedge, hnp⟩ :=
      stuckStep_some edges placed cur (hstall cur (hvp cur hcur_mem))
    have hnxt_pend : nxt ∈ pend := hclosed (cur, nxt) hedge hnp
    simp only [walkCycle]
    rw [hstep]
    show isCycleList edges
      (if nxt ∈ visited then dropThrough nxt visited
        else walkCycle edges placed f (visited ++ [nxt]) nxt) = true
    by_cases hmem : nxt ∈ visited
    · rw [if_pos hmem]
      obtain ⟨t, ht⟩ := dropThrough_eq_cons nxt visited hmem
      rw [ht]
      show chainB edges nxt (t ++ [nxt]) = true
      rw [chainB_append edges t nxt [nxt]]
      have h1 : chainB edges nxt t = true := by
        have hdt := chainFrom_dropThrough edges nxt visited hchain
        rw [ht] at hdt
        exact hdt
      have hlastt : t.getLastD nxt = cur := by
        have h2 := getLastD_dropThrough nxt "" visited hmem
        rw [ht, List.getLastD_cons] at h2
        rw [h2, hlast]
      have h3 : chainB edges (t.getLastD nxt) [nxt] = true := by
        rw [hlastt]
        show (decide ((cur, nxt) ∈ edges) && true) = true
        simp [hedge]
      rw [h1, h3]
      rfl
    · rw [if_neg hmem]
      apply ih (visited ++ [nxt]) nxt
      · intro x hx
        rcases List.mem_append.mp hx with hx | hx
        · exact hvp x hx
        · rw [List.mem_singleton.mp hx]
          exact hnxt_pend
      · simp [List.nodup_append, hnd, hmem]
      · simp
      · exact getLastD_concat visited nxt ""
      · cases hv : visited with
        | nil => exact absurd hv hne
        | cons v0 vr =>
          show chainB edges v0 (vr ++ [nxt]) = true
          rw [chainB_append edges vr v0 [nxt]]
          have hc0 : chainB edges v0 vr = true := by
            rw [hv] at hchain
            exact hchain
          have hl0 : vr.getLastD v0 = cur := by
            rw [hv, List.getLastD_cons] at hlast
            exact hlast
          rw [hc0, hl0]
          show (true && (decide ((cur, nxt) ∈ edges) && true)) = true
          simp [hedge]
      · rw [List.length_append, List.length_singleton]
        omega

theorem producerBefore_append (l l2 : List String) (a b : String)
    (h : producerBefore l a b) : producerBefore (l ++ l2) a b := by
  obtain ⟨ha, hb, hlt⟩ := h
  refine ⟨List.mem_append_left l2 ha, List.mem_append_left l2 hb, ?_⟩
  rw [List.indexOf_append_of_mem ha, List.indexOf_append_of_mem hb]
  exact hlt

/-- Invariant of the Dependency Graph Builder's core loop: an `ok` result is
a duplicate-free topological order, an `error` result carries a genuine
cycle of the graph. -/
theorem topoAux_spec (edges : List (String × String)) :
    ∀ (fuel : Nat) (pending placed : List String),
      pending.length ≤ fuel →
      placed.Nodup → pending.Nodup →
      (∀ x ∈ placed, x ∉ pending) →
      (∀ e ∈ edges, (e.1 ∈ placed ∨ e.1 ∈ pending) ∧ (e.2 ∈ placed ∨ e.2 ∈ pending)) →
      (∀ e ∈ edges, e.1 ∈ placed → producerBefore placed e.2 e.1) →
      (∀ order, topoAux edges fuel placed pending = .ok order →
          order.Nodup ∧ ∀ e ∈ edges, producerBefore order e.2 e.1) ∧
      (∀ c, topoAux edges fuel placed pending = .error c →
          isCycleList edges c.cycle = true) := by
  intro fuel
  induction fuel with
  | zero =>
    intro pending placed hlen hpnd hpendnd hdisj hcov hord
    have hpe : pending = [] := List.length_eq_zero.mp (Nat.le_zero.mp hlen)
    subst hpe
    constructor
    · intro order hok
      simp only [topoAux] at hok
      have horder : placed = order := Except.ok.inj hok
      subst horder
      refine ⟨hpnd, fun e he => ?_⟩
      have h1 : e.1 ∈ placed := by
        rcases (hcov e he).1 with h | h
        · exact h
        · exact absurd h (List.not_mem_nil _)
      exact hord e he h1
    · intro c herr
      simp only [topoAux] at herr
      exact Except.noConfusion herr
  | succ f ih =>
    intro pending placed hlen hpnd hpendnd hdisj hcov hord
    cases hfind : pending.find? (ready edges placed) with
    | some n =>
      have hn_mem := List.mem_of_find?_eq_some hfind
      have hn_ready : ready edges placed n = true := List.find?_some hfind
      have hn_np : n ∉ placed := fun hc => hdisj n hc hn_mem
      have hlen' : (pending.erase n).length ≤ f := by
        rw [List.length_erase_of_mem hn_mem]
        have hpos : 1 ≤ pending.length :=
          List.length_pos.mpr (List.ne_nil_of_mem hn_mem)
        omega
      have hpnd' : (placed ++ [n]).Nodup := by
        simp [List.nodup_append, hpnd, hn_np]
      have hpendnd' : (pending.erase n).Nodup := hpendnd.erase n
      have hdisj' : ∀ x ∈ placed ++ [n], x ∉ pending.erase n := by
        intro x hx hxe
        rcases List.mem_append.mp hx with hx | hx
        · exact hdisj x hx (List.mem_of_mem_erase hxe)
        · rw [List.mem_singleton.mp hx] at hxe
          exact (hpendnd.mem_erase_iff.mp hxe).1 rfl
      have hlift : ∀ x : String, (x ∈ placed ∨ x ∈ pending) →
          (x ∈ placed ++ [n] ∨ x ∈ pending.erase n) := by
        intro x hx
        rcases hx with hx | hx
        · exact Or.inl (List.mem_append_left _ hx)
        · by_cases hxn : x = n
          · refine Or.inl (List.mem_append_right _ ?_)
            rw [hxn]
            exact List.mem_singleton_self n
          · exact Or.inr (hpendnd.mem_erase_iff.mpr ⟨hxn, hx⟩)
      have hcov' : ∀ e ∈ edges,
          (e.1 ∈ placed ++ [n] ∨ e.1 ∈ pending.erase n) ∧
          (e.2 ∈ placed ++ [n] ∨ e.2 ∈ pending.erase n) :=
        fun e he => ⟨hlift e.1 (hcov e he).1, hlift e.2 (hcov e he).2⟩
      have hord' : ∀ e ∈ edges, e.1 ∈ placed ++ [n] →
          producerBefore (placed ++ [n]) e.2 e.1 := by
        intro e he h1
        rcases List.mem_append.mp h1 with h1p | h1n
        · exact producerBefore_append _ _ _ _ (hord e he h1p)
        · have h1n' : e.1 = n := List.mem_singleton.mp h1n
          have h2p : e.2 ∈ placed := (ready_iff edges placed n).mp hn_ready e he h1n'
          refine ⟨List.mem_append_left _ h2p, List.mem_append_right _ h1n, ?_⟩
          rw [h1n', List.indexOf_append_of_mem h2p,
            List.indexOf_append_of_not_mem hn_np, List.indexOf_cons_self]
          have hlt : placed.indexOf e.2 < placed.length :=
            List.indexOf_lt_length.mpr h2p
          omega
      have hrec := ih (pending.erase n) (placed ++ [n]) hlen' hpnd' hpendnd'
        hdisj' hcov' hord'
      constructor
      · intro order hok
        apply hrec.1 order
        simp only [topoAux, hfind] at hok
        exact hok
      · intro c herr
        apply hrec.2 c
        simp only [topoAux, hfind] at herr
        exact herr
    | none =>
      cases hpend : pending with
      | nil =>
        subst hpend
        constructor
        · intro order hok
          simp only [topoAux, List.find?_nil] at hok
          have horder : placed = order := Except.ok.inj hok
          subst horder
          refine ⟨hpnd, fun e he => ?_⟩
          have h1 : e.1 ∈ placed := by
            rcases (hcov e he).1 with h | h
            · exact h
            · exact absurd h (List.not_mem_nil _)
          exact hord e he h1
        · intro c herr
          simp only [topoAux, List.find?_nil] at herr
          exact Except.noConfusion herr
      | cons n0 rest =>
        subst hpend
        constructor
        · intro order hok
          simp only [topoAux, hfind] at hok
          exact Except.noConfusion hok
        · intro c herr
          simp only [topoAux, hfind] at herr
          have hc : c = ⟨walkCycle edges placed ((n0 :: rest).length + 1) [n0] n0⟩ :=
            (Except.error.inj herr).symm
          subst hc
          show isCycleList edges
            (walkCycle edges placed ((n0 :: rest).length + 1) [n0] n0) = true
          apply walkCycle_spec edges placed (n0 :: rest)
          · intro m hm
            exact not_ready_exists edges placed m
              (by simpa using List.find?_eq_none.mp hfind m hm)
          · intro e he hnp
            rcases (hcov e he).2 with h | h
            · exact absurd h hnp
            · exact h
          · intro x hx
            rw [List.mem_singleton.mp hx]
            exact List.mem_cons_self n0 rest
          · simp
          · simp
          · rfl
          · rfl
          · omega

theorem chain_decrease (edges : List (String × String)) (order : List String)
    (h : ∀ e ∈ edges, producerBefore order e.2 e.1) :
    ∀ (ys : List String) (x : String), chainB edges x ys = true → ys ≠ [] →
      order.indexOf (ys.getLastD x) < order.indexOf x := by
  intro ys
  induction ys with
  | nil =>
    intro x _ hne
    exact absurd rfl hne
  | cons b rest ih =>
    intro x hch _
    rw [show chainB edges x (b :: rest) =
      (decide ((x, b) ∈ edges) && chainB edges b rest) from rfl,
      Bool.and_eq_true] at hch
    obtain ⟨hedge, hrest⟩ := hch
    have hlt : order.indexOf b < order.indexOf x :=
      (h (x, b) (of_decide_eq_true hedge)).2.2
    rw [List.getLastD_cons]
    by_cases hrn : rest = []
    · rw [hrn]
      exact hlt
    · exact lt_trans (ih b hrest hrn) hlt

/-- A graph admitting a topological order (producers strictly before
consumers) has no cycle. -/
theorem no_cycle_of_topo (edges : List (String × String)) (order : List String)
    (h : ∀ e ∈ edges, producerBefore order e.2 e.1) : ¬ hasCycle edges := by
  rintro ⟨l, hl⟩
  cases l with
  | nil => exact Bool.noConfusion hl
  | cons a rest =>
    have hch : chainB edges a (rest ++ [a]) = true := hl
    have hdec := chain_decrease edges order h (rest ++ [a]) a hch (by simp)
    rw [getLastD_concat] at hdec
    exact lt_irrefl _ hdec

theorem mem_nodesOf (edges : List (String × String)) (e : String × String)
    (he : e ∈ edges) : e.1 ∈ nodesOf edges ∧ e.2 ∈ nodesOf edges := by
  constructor
  · rw [nodesOf, List.mem_dedup]
    exact List.mem_append_left _ (List.mem_map.mpr ⟨e, he, rfl⟩)
  · rw [nodesOf, List.mem_dedup]
    exact List.mem_append_right _ (List.mem_map.mpr ⟨e, he, rfl⟩)

/-- C2.  Dependency Graph Builder: whenever `build` reports a CycleError,
the reported stacks form a genuine cycle of the reference-induced graph
(so the error identifies the stacks of a cycle); whenever `build` returns
an ordering, every edge consumer→producer has the producer strictly before
the consumer; and `build` succeeds — so that deployment can proceed —
exactly when the induced edges are acyclic. -/
theorem build_correct (refs : List Reference) :
    (∀ c, build refs = .error c → isCycleList (edgesOf refs) c.cycle = true) ∧
    (∀ order, build refs = .ok order →
        ∀ e ∈ edgesOf refs, producerBefore order e.2 e.1) ∧
    ((build refs).isOk = true ↔ ¬ hasCycle (edgesOf refs)) := by
  have hspec := topoAux_spec (edgesOf refs) (nodesOf (edgesOf refs)).length
    (nodesOf (edgesOf refs)) [] (le_refl _) List.nodup_nil (List.nodup_dedup _)
    (fun x hx => absurd hx (List.not_mem_nil x))
    (fun e he => ⟨Or.inr (mem_nodesOf (edgesOf refs) e he).1,
      Or.inr (mem_nodesOf (edgesOf refs) e he).2⟩)
    (fun e _ h1 => absurd h1 (List.not_mem_nil _))
  refine ⟨fun c herr => hspec.2 c herr,
    fun order hok e he => (hspec.1 order hok).2 e he, ?_, ?_⟩
  · intro hok
    cases hb : build refs with
    | ok order =>
      exact no_cycle_of_topo _ order (fun e he => (hspec.1 order hb).2 e he)
    | error c =>
      rw [hb] at hok
      exact Bool.noConfusion hok
  · intro hnc
    cases hb : build refs with
    | ok order => rfl
    | error c =>
      exact absurd ⟨c.cycle, hspec.2 c hb⟩ hnc

/-- Witness for C2: on the two-stack cyclic reference set, `build` does not
return an ordering. -/
theorem build_correct_witness : (build cycRefs).isOk = false := by
  have h := (build_correct cycRefs).2.2
  have hc : hasCycle (edgesOf cycRefs) := ⟨["A", "B"], by decide⟩
  cases hk : (build cycRefs).isOk with
  | false => rfl
  | true => exact absurd hc (h.mp hk)
